import Mathlib

/-!
Verification of the HTML fragmentation algorithm in
`src/html_fragmenter/msg_split.py` (class `HTMLSplitter` and the module-level
`split_message` helper).

The external HTML parser/serializer (BeautifulSoup) is modelled by an explicit
node tree: a node is either a text run or an element with a tag name, an
ordered attribute list and an ordered child list.  Serialization renders an
element as an open tag (with its attributes), the serialization of its
children, and a close tag; a text node serializes to its own characters.
Parsing is the external collaborator's job, so the embedded driver takes the
parsed top-level node list as input; the recursive step of the Python code,
which re-serializes the remainder and re-parses it, is modelled using the
round-trip stability assumption the design states for the collaborator
(serialize-then-parse is the identity on node lists).

The Python generator `split_message` is modelled as a function returning the
trace a consumer observes: the list of fragment strings yielded, in order,
together with an optional terminal error (`none` when the generator runs to
completion).  Fragments yielded before an exception is raised are part of the
trace, exactly as a consumer of the Python generator sees them.
-/

namespace MsgSplit

/-- A node of the parsed HTML tree: a text run (`NavigableString`) or an
element (`Tag`) with tag name, ordered attributes and ordered children. -/
inductive Node where
  | text (s : String)
  | elem (tag : String) (attrs : List (String × String)) (children : List Node)

/-- Serialization of an attribute list, as the open tag renders it. -/
def serializeAttrs : List (String × String) → String
  | [] => ""
  | (k, v) :: rest => " " ++ k ++ "=\"" ++ v ++ "\"" ++ serializeAttrs rest

mutual

/-- Serialization of one node (`str(element)` in the Python code). -/
def serializeNode : Node → String
  | .text s => s
  | .elem tag attrs children =>
      "<" ++ tag ++ serializeAttrs attrs ++ ">" ++ serializeList children
        ++ "</" ++ tag ++ ">"

/-- Serialization of a node list in order (`str` of a soup whose children are
the given nodes). -/
def serializeList : List Node → String
  | [] => ""
  | n :: rest => serializeNode n ++ serializeList rest

end

/-- `len(str(element))`: the serialized character length of one node. -/
def nodeLen (n : Node) : Nat := (serializeNode n).length

/-- `isinstance(child, Tag)`. -/
def isTag : Node → Bool
  | .text _ => false
  | .elem _ _ _ => true

/-- The direct children of a node (`element.children`; a text node has none). -/
def childrenOf : Node → List Node
  | .text _ => []
  | .elem _ _ cs => cs

/-- A string is blank when every character is whitespace: this is exactly when
Python's `s.strip()` is falsy. -/
def isBlankStr (s : String) : Bool := s.data.all Char.isWhitespace

/-- `isinstance(element, NavigableString) and not element.strip()`: a
whitespace-only text node. -/
def isBlankText : Node → Bool
  | .text s => isBlankStr s
  | .elem _ _ _ => false

/-- The three `FragmentationError` raise sites of `split_message`, told apart
by their messages. -/
inductive FragErr where
  | cannotSplit (len : Nat)
  | noSplitPoint
  | firstPartTooLong
deriving DecidableEq, Repr

/-- `HTMLSplitter._can_be_split`: text nodes cannot be split, childless
elements cannot be split, otherwise an element can be split exactly when some
direct child is a `Tag`. -/
def can_be_split : Node → Bool
  | .text _ => false
  | .elem _ _ cs => !cs.isEmpty && cs.any isTag

/-- Loop body of `HTMLSplitter._find_split_point`, returning the index (among
all children, text ones included) of the returned child.  Children that are
not `Tag`s are passed over without contributing to the running total. -/
def findSplitAux (maxLen : Nat) : List Node → Nat → Option Nat
  | [], _ => none
  | c :: rest, currentLength =>
      if isTag c then
        if maxLen < currentLength + nodeLen c then some 0
        else (findSplitAux maxLen rest (currentLength + nodeLen c)).map (· + 1)
      else (findSplitAux maxLen rest currentLength).map (· + 1)

/-- `HTMLSplitter._find_split_point`: `None` for a non-`Tag`, otherwise the
first `Tag` child whose serialized length pushes the running total strictly
past `max_len` (identified by its index among all direct children). -/
def find_split_point (maxLen : Nat) : Node → Nat → Option Nat
  | .text _, _ => none
  | .elem _ _ cs, currentLength => findSplitAux maxLen cs currentLength

/-- `HTMLSplitter._create_fragment` with no parent chain (the only way the
driver calls it): a fresh document whose children are copies of the given
nodes serializes to the concatenation of their serializations. -/
def create_fragment (elements : List Node) : String := serializeList elements

mutual

/-- Node count, the termination measure of the driver. -/
def count : Node → Nat
  | .text _ => 1
  | .elem _ _ cs => 1 + countList cs

/-- Node count of a list of trees. -/
def countList : List Node → Nat
  | [] => 0
  | n :: rest => count n + countList rest

end

theorem count_pos (n : Node) : 1 ≤ count n := by
  cases n <;> simp [count]

theorem countList_drop_le (l : List Node) (k : Nat) :
    countList (l.drop k) ≤ countList l := by
  induction l generalizing k with
  | nil => simp [List.drop]
  | cons n rest ih =>
      cases k with
      | zero => exact Nat.le_refl _
      | succ k =>
          simp only [List.drop, countList]
          exact Nat.le_trans (ih k) (Nat.le_add_left _ _)

theorem countList_children_lt (n : Node) : countList (childrenOf n) < count n := by
  cases n with
  | text s => simp [childrenOf, count, countList]
  | elem tag attrs cs => simp only [childrenOf, count]; omega

/-- The driver loop of `HTMLSplitter.split_message` (lines 162-219), together
with the final flush.  Arguments: the top-level nodes still to scan, the
accumulated nodes `current_elements`, and `current_length`.  The result is the
sequence of yielded fragment strings and the error the generator raises, if
any.  The recursive call `split_message(str(remaining))` of line 197 is
modelled on the remainder node list directly (round-trip stability of the
external parser), duplicating the blank-source guard of line 155. -/
def splitLoop (maxLen : Nat) :
    List Node → List Node → Nat → List String × Option FragErr
  | [], acc, _ =>
      if acc.isEmpty then ([], none)
      else if isBlankStr (create_fragment acc) then ([], none)
      else ([create_fragment acc], none)
  | element :: rest, acc, accLen =>
      if isBlankText element then splitLoop maxLen rest acc accLen
      else
        let elementLength := nodeLen element
        if maxLen < elementLength then
          if !can_be_split element then ([], some (.cannotSplit elementLength))
          else
            match find_split_point maxLen element 0 with
            | none => ([], some .noSplitPoint)
            | some i =>
                let cs := childrenOf element
                let firstPart := create_fragment (cs.take i)
                if firstPart.length ≤ maxLen then
                  let rem := cs.drop (i + 1)
                  let inner :=
                    if isBlankStr (serializeList rem) then ([], none)
                    else splitLoop maxLen rem [] 0
                  match inner with
                  | (innerFrags, some e) => (firstPart :: innerFrags, some e)
                  | (innerFrags, none) =>
                      let outer := splitLoop maxLen rest acc accLen
                      (firstPart :: (innerFrags ++ outer.1), outer.2)
                else ([], some .firstPartTooLong)
        else if maxLen < accLen + elementLength then
          let flushed := if acc.isEmpty then [] else [create_fragment acc]
          let next := splitLoop maxLen rest [element] elementLength
          (flushed ++ next.1, next.2)
        else splitLoop maxLen rest (acc ++ [element]) (accLen + elementLength)
  termination_by l => countList l
  decreasing_by
  all_goals first
    | (simp only [countList]; have := count_pos element; omega)
    | (have h1 := countList_drop_le (childrenOf element) (i + 1)
       have h2 := countList_children_lt element
       simp only [countList]; omega)

/-- `split_message(source, max_len)`: the blank-source guard of line 155
followed by the driver loop with empty accumulator. -/
def split_message (maxLen : Nat) (nodes : List Node) :
    List String × Option FragErr :=
  if isBlankStr (serializeList nodes) then ([], none)
  else splitLoop maxLen nodes [] 0

/-- Fuel-indexed twin of `splitLoop`, structurally recursive in the fuel so
that concrete inputs evaluate inside the kernel; `splitLoopF_eq` shows it
agrees with `splitLoop` whenever the fuel covers the node count. -/
def splitLoopF (maxLen : Nat) :
    Nat → List Node → List Node → Nat → List String × Option FragErr
  | 0, _, _, _ => ([], none)
  | _ + 1, [], acc, _ =>
      if acc.isEmpty then ([], none)
      else if isBlankStr (create_fragment acc) then ([], none)
      else ([create_fragment acc], none)
  | fuel + 1, element :: rest, acc, accLen =>
      if isBlankText element then splitLoopF maxLen fuel rest acc accLen
      else
        let elementLength := nodeLen element
        if maxLen < elementLength then
          if !can_be_split element then ([], some (.cannotSplit elementLength))
          else
            match find_split_point maxLen element 0 with
            | none => ([], some .noSplitPoint)
            | some i =>
                let cs := childrenOf element
                let firstPart := create_fragment (cs.take i)
                if firstPart.length ≤ maxLen then
                  let rem := cs.drop (i + 1)
                  let inner :=
                    if isBlankStr (serializeList rem) then ([], none)
                    else splitLoopF maxLen fuel rem [] 0
                  match inner with
                  | (innerFrags, some e) => (firstPart :: innerFrags, some e)
                  | (innerFrags, none) =>
                      let outer := splitLoopF maxLen fuel rest acc accLen
                      (firstPart :: (innerFrags ++ outer.1), outer.2)
                else ([], some .firstPartTooLong)
        else if maxLen < accLen + elementLength then
          let flushed := if acc.isEmpty then [] else [create_fragment acc]
          let next := splitLoopF maxLen fuel rest [element] elementLength
          (flushed ++ next.1, next.2)
        else splitLoopF maxLen fuel rest (acc ++ [element]) (accLen + elementLength)

theorem splitLoopF_eq (maxLen : Nat) (fuel : Nat) :
    ∀ (l acc : List Node) (accLen : Nat), countList l < fuel →
      splitLoopF maxLen fuel l acc accLen = splitLoop maxLen l acc accLen := by
  induction fuel with
  | zero => exact fun l acc accLen h => absurd h (Nat.not_lt_zero _)
  | succ fuel ih =>
      intro l acc accLen h
      cases l with
      | nil => rw [splitLoop.eq_def]; rfl
      | cons element rest =>
          have hrest : countList rest < fuel := by
            simp only [countList] at h; have := count_pos element; omega
          have hrem : ∀ k, countList ((childrenOf element).drop k) < fuel := by
            intro k
            have h1 := countList_drop_le (childrenOf element) k
            have h2 := countList_children_lt element
            simp only [countList] at h
            omega
          rw [splitLoop.eq_def]
          simp only [splitLoopF]
          by_cases hb : isBlankText element = true
          · rw [if_pos hb, if_pos hb]; exact ih rest acc accLen hrest
          · rw [if_neg hb, if_neg hb]
            by_cases hbig : maxLen < nodeLen element
            · rw [if_pos hbig, if_pos hbig]
              by_cases hcs : (!can_be_split element) = true
              · rw [if_pos hcs, if_pos hcs]
              · rw [if_neg hcs, if_neg hcs]
                cases hfs : find_split_point maxLen element 0 with
                | none => rfl
                | some i =>
                    simp only []
                    rw [ih ((childrenOf element).drop (i + 1)) [] 0 (hrem (i + 1)),
                        ih rest acc accLen hrest]
            · rw [if_neg hbig, if_neg hbig]
              by_cases hflush : maxLen < accLen + nodeLen element
              · rw [if_pos hflush, if_pos hflush,
                    ih rest [element] (nodeLen element) hrest]
              · rw [if_neg hflush, if_neg hflush]
                exact ih rest (acc ++ [element]) (accLen + nodeLen element) hrest

/-- Evaluation form of `split_message`, with just enough fuel. -/
def split_messageF (maxLen : Nat) (nodes : List Node) :
    List String × Option FragErr :=
  if isBlankStr (serializeList nodes) then ([], none)
  else splitLoopF maxLen (countList nodes + 1) nodes [] 0

theorem split_messageF_eq (maxLen : Nat) (nodes : List Node) :
    split_message maxLen nodes = split_messageF maxLen nodes := by
  unfold split_message split_messageF
  rw [splitLoopF_eq maxLen (countList nodes + 1) nodes [] 0 (Nat.lt_succ_self _)]

/-! Serialization and blankness lemmas. -/

theorem serializeList_append (a b : List Node) :
    serializeList (a ++ b) = serializeList a ++ serializeList b := by
  induction a with
  | nil => simp [serializeList]
  | cons n rest ih => simp [serializeList, ih, String.append_assoc]

theorem create_fragment_nil : create_fragment [] = "" := rfl

theorem create_fragment_single_length (n : Node) :
    (create_fragment [n]).length = nodeLen n := by
  simp [create_fragment, serializeList, nodeLen, String.append_empty]

theorem create_fragment_snoc_length (acc : List Node) (n : Node) :
    (create_fragment (acc ++ [n])).length = (create_fragment acc).length + nodeLen n := by
  simp [create_fragment, serializeList_append, String.length_append,
    serializeList, nodeLen, String.append_empty]

theorem isBlankStr_append (a b : String) :
    isBlankStr (a ++ b) = (isBlankStr a && isBlankStr b) := by
  simp [isBlankStr, String.data_append, List.all_append]

theorem isBlankStr_elem (tag : String) (attrs : List (String × String))
    (cs : List Node) : isBlankStr (serializeNode (.elem tag attrs cs)) = false := by
  have hlt : isBlankStr "<" = false := rfl
  simp [serializeNode, isBlankStr_append, hlt]

theorem isBlankStr_of_nonblank (n : Node) (h : isBlankText n = false) :
    isBlankStr (serializeNode n) = false := by
  cases n with
  | text s => simpa [isBlankText, serializeNode] using h
  | elem tag attrs cs => exact isBlankStr_elem tag attrs cs

theorem serializeList_nonblank_of_mem {nodes : List Node} {n : Node}
    (hm : n ∈ nodes) (h : isBlankText n = false) :
    isBlankStr (serializeList nodes) = false := by
  induction nodes with
  | nil => cases hm
  | cons m rest ih =>
      rw [serializeList, isBlankStr_append]
      rcases List.mem_cons.mp hm with rfl | hmem
      · rw [isBlankStr_of_nonblank n h, Bool.false_and]
      · rw [ih hmem, Bool.and_false]

theorem serializeList_blank_of_forall {nodes : List Node}
    (h : ∀ n ∈ nodes, isBlankText n = true) :
    isBlankStr (serializeList nodes) = true := by
  induction nodes with
  | nil => rfl
  | cons m rest ih =>
      rw [serializeList, isBlankStr_append]
      have hm := h m (by simp)
      have hblank : isBlankStr (serializeNode m) = true := by
        cases m with
        | text s => simpa [isBlankText, serializeNode] using hm
        | elem tag attrs cs => simp [isBlankText] at hm
      rw [hblank, ih (fun n hn => h n (by simp [hn])), Bool.and_self]

/-! Size-bound invariant of the driver loop, proved on the fuel twin and
transported to `split_message`. -/

theorem splitLoopF_frag_len (maxLen : Nat) (fuel : Nat) :
    ∀ (l acc : List Node) (accLen : Nat),
      accLen = (create_fragment acc).length → accLen ≤ maxLen →
      ∀ f ∈ (splitLoopF maxLen fuel l acc accLen).1, f.length ≤ maxLen := by
  induction fuel with
  | zero => intro l acc accLen h1 h2 f hf; simp [splitLoopF] at hf
  | succ fuel ih =>
      intro l acc accLen h1 h2 f hf
      subst h1
      cases l with
      | nil =>
          simp only [splitLoopF] at hf
          by_cases he : acc.isEmpty = true
          · rw [if_pos he] at hf; simp at hf
          · rw [if_neg he] at hf
            by_cases hbl : isBlankStr (create_fragment acc) = true
            · rw [if_pos hbl] at hf; simp at hf
            · rw [if_neg hbl] at hf
              simp only [List.mem_singleton] at hf
              rw [hf]; exact h2
      | cons element rest =>
          simp only [splitLoopF] at hf
          by_cases hb : isBlankText element = true
          · rw [if_pos hb] at hf; exact ih rest acc _ rfl h2 f hf
          · rw [if_neg hb] at hf
            by_cases hbig : maxLen < nodeLen element
            · rw [if_pos hbig] at hf
              by_cases hcs : (!can_be_split element) = true
              · rw [if_pos hcs] at hf; simp at hf
              · rw [if_neg hcs] at hf
                cases hfs : find_split_point maxLen element 0 with
                | none => rw [hfs] at hf; simp at hf
                | some i =>
                    rw [hfs] at hf
                    simp only [] at hf
                    by_cases hfp :
                        (create_fragment ((childrenOf element).take i)).length ≤ maxLen
                    · rw [if_pos hfp] at hf
                      by_cases hbl :
                          isBlankStr (serializeList ((childrenOf element).drop (i + 1)))
                            = true
                      · rw [if_pos hbl] at hf
                        simp only [List.nil_append, List.mem_cons] at hf
                        rcases hf with rfl | hf
                        · exact hfp
                        · exact ih rest acc _ rfl h2 f hf
                      · rw [if_neg hbl] at hf
                        rcases hin :
                            splitLoopF maxLen fuel ((childrenOf element).drop (i + 1)) [] 0
                          with ⟨innerFrags, innerErr⟩
                        rw [hin] at hf
                        have hinner : ∀ g ∈ innerFrags, g.length ≤ maxLen := by
                          intro g hg
                          exact ih ((childrenOf element).drop (i + 1)) [] 0 rfl
                            (Nat.zero_le _) g (by rw [hin]; exact hg)
                        cases innerErr with
                        | some e =>
                            simp only [List.mem_cons] at hf
                            rcases hf with rfl | hf
                            · exact hfp
                            · exact hinner f hf
                        | none =>
                            simp only [List.mem_cons, List.mem_append] at hf
                            rcases hf with rfl | hf | hf
                            · exact hfp
                            · exact hinner f hf
                            · exact ih rest acc _ rfl h2 f hf
                    · rw [if_neg hfp] at hf; simp at hf
            · rw [if_neg hbig] at hf
              by_cases hflush :
                  maxLen < (create_fragment acc).length + nodeLen element
              · rw [if_pos hflush] at hf
                simp only [List.mem_append] at hf
                rcases hf with hf | hf
                · by_cases he : acc.isEmpty = true
                  · rw [if_pos he] at hf; simp at hf
                  · rw [if_neg he] at hf
                    simp only [List.mem_singleton] at hf
                    rw [hf]; exact h2
                · exact ih rest [element] _ (create_fragment_single_length element).symm
                    (Nat.le_of_not_lt hbig) f hf
              · rw [if_neg hflush] at hf
                exact ih rest (acc ++ [element]) _
                  (create_fragment_snoc_length acc element).symm
                  (Nat.le_of_not_lt hflush) f hf

/-- C1: for every input and every positive `max_len`, every fragment yielded
by `split_message` has character length at most `max_len`. -/
theorem C1_size_bound (maxLen : Nat) (nodes : List Node) (_hpos : 0 < maxLen) :
    ∀ f ∈ (split_message maxLen nodes).1, f.length ≤ maxLen := by
  intro f hf
  rw [split_messageF_eq] at hf
  unfold split_messageF at hf
  by_cases hb : isBlankStr (serializeList nodes) = true
  · rw [if_pos hb] at hf; simp at hf
  · rw [if_neg hb] at hf
    exact splitLoopF_frag_len maxLen _ nodes [] 0 rfl (Nat.zero_le _) f hf

/-- C1 witness: on a concrete input `split_message` succeeds with the single
fragment `""`, whose length is within the bound `5`. -/
theorem C1_size_bound_witness :
    "" ∈ (split_message 5 [.elem "div" [] [.elem "b" [] [.text "xxxx"]]]).1 ∧
      ("" : String).length ≤ 5 := by
  have hmem : "" ∈ (split_message 5 [.elem "div" [] [.elem "b" [] [.text "xxxx"]]]).1 := by
    rw [split_messageF_eq]; decide
  exact ⟨hmem, C1_size_bound 5 _ (by decide) "" hmem⟩

/-! Error propagation: once the loop hits an error, the input after the
failing node is never inspected, so nothing further is yielded. -/

theorem countList_append (a b : List Node) :
    countList (a ++ b) = countList a + countList b := by
  induction a with
  | nil => simp [countList]
  | cons n rest ih => simp [countList, ih]; omega

theorem splitLoopF_error_stops (maxLen : Nat) (fuel : Nat) :
    ∀ (l extra acc : List Node) (accLen : Nat),
      (splitLoopF maxLen fuel l acc accLen).2.isSome = true →
      splitLoopF maxLen fuel (l ++ extra) acc accLen
        = splitLoopF maxLen fuel l acc accLen := by
  induction fuel with
  | zero => intro l extra acc accLen h; simp [splitLoopF] at h
  | succ fuel ih =>
      intro l extra acc accLen h
      cases l with
      | nil =>
          exfalso
          simp only [splitLoopF] at h
          by_cases he : acc.isEmpty = true
          · rw [if_pos he] at h; simp at h
          · rw [if_neg he] at h
            by_cases hbl : isBlankStr (create_fragment acc) = true
            · rw [if_pos hbl] at h; simp at h
            · rw [if_neg hbl] at h; simp at h
      | cons element rest =>
          rw [List.cons_append]
          simp only [splitLoopF] at h ⊢
          by_cases hb : isBlankText element = true
          · rw [if_pos hb] at h; rw [if_pos hb, if_pos hb]
            exact ih rest extra acc accLen h
          · rw [if_neg hb] at h; rw [if_neg hb, if_neg hb]
            by_cases hbig : maxLen < nodeLen element
            · rw [if_pos hbig] at h; rw [if_pos hbig, if_pos hbig]
              by_cases hcs : (!can_be_split element) = true
              · rw [if_pos hcs, if_pos hcs]
              · rw [if_neg hcs] at h; rw [if_neg hcs, if_neg hcs]
                cases hfs : find_split_point maxLen element 0 with
                | none => rfl
                | some i =>
                    rw [hfs] at h
                    simp only [] at h ⊢
                    by_cases hfp :
                        (create_fragment ((childrenOf element).take i)).length ≤ maxLen
                    · rw [if_pos hfp] at h; rw [if_pos hfp, if_pos hfp]
                      by_cases hbl :
                          isBlankStr (serializeList ((childrenOf element).drop (i + 1)))
                            = true
                      · rw [if_pos hbl] at h; rw [if_pos hbl]
                        have h2 : (splitLoopF maxLen fuel rest acc accLen).2.isSome
                            = true := h
                        rw [ih rest extra acc accLen h2]
                      · rw [if_neg hbl] at h; rw [if_neg hbl]
                        rcases hin :
                            splitLoopF maxLen fuel ((childrenOf element).drop (i + 1)) [] 0
                          with ⟨innerFrags, innerErr⟩
                        rw [hin] at h
                        cases innerErr with
                        | some e => rfl
                        | none =>
                            simp only [] at h ⊢
                            have h2 : (splitLoopF maxLen fuel rest acc accLen).2.isSome
                                = true := h
                            rw [ih rest extra acc accLen h2]
                    · rw [if_neg hfp, if_neg hfp]
            · rw [if_neg hbig] at h; rw [if_neg hbig, if_neg hbig]
              by_cases hflush : maxLen < accLen + nodeLen element
              · rw [if_pos hflush] at h; rw [if_pos hflush, if_pos hflush]
                have h2 : (splitLoopF maxLen fuel rest [element] (nodeLen element)).2.isSome
                    = true := h
                rw [ih rest extra [element] (nodeLen element) h2]
              · rw [if_neg hflush] at h; rw [if_neg hflush, if_neg hflush]
                exact ih rest extra (acc ++ [element]) (accLen + nodeLen element) h

theorem splitLoop_error_stops (maxLen : Nat) (l extra acc : List Node) (accLen : Nat)
    (h : (splitLoop maxLen l acc accLen).2.isSome = true) :
    splitLoop maxLen (l ++ extra) acc accLen = splitLoop maxLen l acc accLen := by
  have hlt1 : countList l < countList (l ++ extra) + 1 := by
    rw [countList_append]; omega
  have hlt2 : countList (l ++ extra) < countList (l ++ extra) + 1 := Nat.lt_succ_self _
  have e1 := splitLoopF_eq maxLen (countList (l ++ extra) + 1) l acc accLen hlt1
  have e2 := splitLoopF_eq maxLen (countList (l ++ extra) + 1) (l ++ extra) acc accLen hlt2
  rw [← e1, ← e2]
  exact splitLoopF_error_stops maxLen _ l extra acc accLen (by rw [e1]; exact h)

/-- C4 counterexample: on a concrete input the generator yields a fragment and
then raises, so the consumer does observe fragments before the error
surfaces, contradicting the claim as stated. -/
theorem C4_counterexample :
    (split_message 10 [.elem "i" [] [.text "a"], .elem "b" [] [.text "bb"],
        .elem "p" [] [.text "xxxxxxxxxxxx"]]).2.isSome = true ∧
    (split_message 10 [.elem "i" [] [.text "a"], .elem "b" [] [.text "bb"],
        .elem "p" [] [.text "xxxxxxxxxxxx"]]).1 ≠ [] := by
  rw [split_messageF_eq]
  decide

/-- C4 amended: a failure propagates to the caller immediately and terminates
the sequence: the input after the point of failure is never inspected and
contributes no fragments (appending further nodes to an erroring input changes
neither the yielded fragments nor the error).  Fragments yielded before the
failing node, however, have already been observed by the consumer. -/
theorem C4_error_propagates (maxLen : Nat) (l extra : List Node)
    (h : (split_message maxLen l).2.isSome = true) :
    split_message maxLen (l ++ extra) = split_message maxLen l := by
  unfold split_message at h ⊢
  by_cases hb : isBlankStr (serializeList l) = true
  · rw [if_pos hb] at h; simp at h
  · rw [if_neg hb] at h ⊢
    have hbf : isBlankStr (serializeList l) = false := by
      revert hb; cases isBlankStr (serializeList l) <;> simp
    have hb2 : isBlankStr (serializeList (l ++ extra)) = false := by
      rw [serializeList_append, isBlankStr_append, hbf, Bool.false_and]
    rw [if_neg (by simp [hb2])]
    exact splitLoop_error_stops maxLen l extra [] 0 h

/-- C4 amended witness: appending a small element after an oversized
unsplittable paragraph leaves the trace unchanged. -/
theorem C4_error_propagates_witness :
    split_message 10
        ([.elem "p" [] [.text "xxxxxxxxxxxx"]] ++ [.elem "i" [] [.text "a"]])
      = split_message 10 [.elem "p" [] [.text "xxxxxxxxxxxx"]] :=
  C4_error_propagates 10 _ _ (by rw [split_messageF_eq]; decide)

/-! Oversized unsplittable nodes make the whole call fail. -/

theorem nodeLen_p_text (s : String) :
    nodeLen (.elem "p" [] [.text s]) = s.length + 7 := by
  have h0 : ("" : String).length = 0 := rfl
  have h1 : ("<" : String).length = 1 := rfl
  have h2 : ("p" : String).length = 1 := rfl
  have h3 : (">" : String).length = 1 := rfl
  have h4 : ("</" : String).length = 2 := rfl
  simp only [nodeLen, serializeNode, serializeList, serializeAttrs,
    String.length_append]
  omega

theorem length_mk_replicate (k : Nat) :
    (String.mk (List.replicate k 'x')).length = k := by
  show (List.replicate k 'x').length = k
  exact List.length_replicate k 'x'

theorem splitLoop_hits_unsplittable (maxLen : Nat) (n : Node) (post : List Node)
    (hnb : isBlankText n = false) (hbig : maxLen < nodeLen n)
    (hcs : can_be_split n = false) :
    ∀ (pre acc : List Node) (accLen : Nat), (∀ m ∈ pre, nodeLen m ≤ maxLen) →
      (splitLoop maxLen (pre ++ n :: post) acc accLen).2
        = some (.cannotSplit (nodeLen n)) := by
  intro pre
  induction pre with
  | nil =>
      intro acc accLen _
      rw [List.nil_append, splitLoop.eq_def]
      simp only []
      rw [if_neg (show ¬isBlankText n = true by simp [hnb])]
      rw [if_pos hbig]
      rw [if_pos (show (!can_be_split n) = true by simp [hcs])]
  | cons m pre ih =>
      intro acc accLen hpre
      have hm : nodeLen m ≤ maxLen := hpre m (by simp)
      have hpre2 : ∀ x ∈ pre, nodeLen x ≤ maxLen := fun x hx => hpre x (by simp [hx])
      rw [List.cons_append, splitLoop.eq_def]
      simp only []
      by_cases hbm : isBlankText m = true
      · rw [if_pos hbm]; exact ih acc accLen hpre2
      · rw [if_neg hbm]
        rw [if_neg (show ¬maxLen < nodeLen m by omega)]
        by_cases hfl : maxLen < accLen + nodeLen m
        · rw [if_pos hfl]
          exact ih [m] (nodeLen m) hpre2
        · rw [if_neg hfl]
          exact ih (acc ++ [m]) (accLen + nodeLen m) hpre2

/-- C5: the spec's concrete test input `"<p>" + "x"*(max_len+100) + "</p>"`
fails with the non-splittable-content error for every `max_len` (the
paragraph serializes to `max_len + 107` characters and its only child is
text); and in general, whenever the driver reaches a non-blank top-level node
whose serialized length exceeds `max_len` and `_can_be_split` is false, the
call fails with the non-splittable-content error carrying that node's length,
and the terminal error ends the trace, so no further fragments are yielded. -/
theorem C5_nonsplittable_oversized :
    (∀ maxLen : Nat,
      split_message maxLen
          [.elem "p" [] [.text (String.mk (List.replicate (maxLen + 100) 'x'))]]
        = ([], some (.cannotSplit (maxLen + 107)))) ∧
    (∀ (maxLen : Nat) (pre : List Node) (n : Node) (post : List Node),
      (∀ m ∈ pre, nodeLen m ≤ maxLen) →
      isBlankText n = false →
      maxLen < nodeLen n →
      can_be_split n = false →
      (split_message maxLen (pre ++ n :: post)).2
        = some (.cannotSplit (nodeLen n))) := by
  constructor
  · intro maxLen
    have hlen : nodeLen (.elem "p" []
        [.text (String.mk (List.replicate (maxLen + 100) 'x'))]) = maxLen + 107 := by
      rw [nodeLen_p_text, length_mk_replicate]
    unfold split_message
    rw [if_neg (by simp [serializeList, isBlankStr_append, isBlankStr_elem])]
    rw [splitLoop.eq_def]
    simp only []
    rw [if_neg (show ¬isBlankText (Node.elem "p" []
        [.text (String.mk (List.replicate (maxLen + 100) 'x'))]) = true by
      simp [isBlankText])]
    rw [if_pos (show maxLen < nodeLen (Node.elem "p" []
        [.text (String.mk (List.replicate (maxLen + 100) 'x'))]) by
      rw [hlen]; omega)]
    rw [if_pos (show (!can_be_split (Node.elem "p" []
        [.text (String.mk (List.replicate (maxLen + 100) 'x'))])) = true by
      simp [can_be_split, isTag])]
    rw [hlen]
  · intro maxLen pre n post hpre hnb hbig hcs
    unfold split_message
    have hmem : n ∈ pre ++ n :: post := by simp
    rw [if_neg (by simp [serializeList_nonblank_of_mem hmem hnb])]
    exact splitLoop_hits_unsplittable maxLen n post hnb hbig hcs pre [] 0 hpre

/-- C5 witness: both halves applied at concrete inputs. -/
theorem C5_nonsplittable_oversized_witness :
    split_message 3 [.elem "p" [] [.text (String.mk (List.replicate 103 'x'))]]
        = ([], some (.cannotSplit 110)) ∧
    (split_message 10 ([] ++ (Node.elem "p" [] [.text "xxxxxxxxxxxx"]) :: [])).2
        = some (.cannotSplit (nodeLen (.elem "p" [] [.text "xxxxxxxxxxxx"]))) :=
  ⟨C5_nonsplittable_oversized.1 3,
   C5_nonsplittable_oversized.2 10 [] _ [] (by simp) (by decide) (by decide) (by decide)⟩

/-! The remaining claims. -/

/-- C2 (evidence of a code bug): on this input the located split point is the
second bold element; the code recurses over `split_point.next_siblings`, so
the split-point child itself (`<b>yy</b>`, carrying the content node `yy`) is
dropped: the call succeeds, yet no yielded fragment contains it. -/
theorem C2_split_point_child_dropped :
    serializeList [(.elem "div" []
        [.elem "b" [] [.text "xx"], .elem "b" [] [.text "yy"]] : Node)]
      = "<div><b>xx</b><b>yy</b></div>" ∧
    split_message 10
        [.elem "div" [] [.elem "b" [] [.text "xx"], .elem "b" [] [.text "yy"]]]
      = (["<b>xx</b>"], none) := by
  constructor
  · decide
  · rw [split_messageF_eq]; decide

/-- C3 (evidence of a code bug): the accumulated earlier sibling `<i>a</i>` is
not flushed before the oversized `<div>` is handled, so its content `a`,
which occurs first in the document, is yielded after the fragment
`<b>xx</b>` obtained from inside the later `<div>`. -/
theorem C3_fragments_reordered :
    split_message 10 [.elem "i" [] [.text "a"],
        .elem "div" [] [.elem "b" [] [.text "xx"], .elem "b" [] [.text "yy"]]]
      = (["<b>xx</b>", "<i>a</i>"], none) := by
  rw [split_messageF_eq]; decide

/-- C7: `_can_be_split` returns false for text nodes and for childless
elements, and holds exactly when some direct child is itself an element. -/
theorem C7_can_be_split_characterization :
    (∀ s, can_be_split (.text s) = false) ∧
    (∀ tag attrs, can_be_split (.elem tag attrs []) = false) ∧
    (∀ n : Node, can_be_split n = true ↔ ∃ c ∈ childrenOf n, isTag c = true) := by
  refine ⟨fun s => rfl, fun tag attrs => rfl, fun n => ?_⟩
  cases n with
  | text s => simp [can_be_split, childrenOf]
  | elem tag attrs cs =>
      cases cs with
      | nil => simp [can_be_split, childrenOf]
      | cons c rest => simp [can_be_split, childrenOf, List.any_eq_true]

/-- C7 witness: a mixed-children element is splittable via the
characterization. -/
theorem C7_can_be_split_witness :
    can_be_split (.elem "div" [] [.text "a", .elem "b" [] []]) = true :=
  (C7_can_be_split_characterization.2.2 _).mpr ⟨.elem "b" [] [], by simp [childrenOf], rfl⟩

/-- C8: the empty document yields zero fragments, and so does any document
whose top-level nodes are all whitespace-only text. -/
theorem C8_blank_input_yields_nothing :
    (∀ maxLen : Nat, split_message maxLen [] = ([], none)) ∧
    (∀ (maxLen : Nat) (nodes : List Node), (∀ n ∈ nodes, isBlankText n = true) →
      split_message maxLen nodes = ([], none)) := by
  constructor
  · intro maxLen; rfl
  · intro maxLen nodes h
    unfold split_message
    rw [if_pos (serializeList_blank_of_forall h)]

/-- C8 witness: a single whitespace text node yields nothing. -/
theorem C8_blank_input_witness :
    split_message 7 [.text "  "] = ([], none) :=
  C8_blank_input_yields_nothing.2 7 [.text "  "] (by decide)

/-- C9: there is an input and a `max_len` for which `split_message` succeeds
and yields an empty-string fragment: the located split point is the oversized
element's very first child, so the assembled first part is empty and is
yielded as the fragment `""`. -/
theorem C9_empty_fragment_possible :
    ∃ (maxLen : Nat) (nodes : List Node),
      (split_message maxLen nodes).2 = none ∧ "" ∈ (split_message maxLen nodes).1 := by
  refine ⟨5, [.elem "div" [] [.elem "b" [] [.text "xxxx"]]], ?_, ?_⟩
  · rw [split_messageF_eq]; decide
  · rw [split_messageF_eq]; decide

theorem findSplitAux_tag (maxLen : Nat) (cs : List Node) :
    ∀ (cur i : Nat), findSplitAux maxLen cs cur = some i →
      ∃ c, cs.get? i = some c ∧ isTag c = true := by
  induction cs with
  | nil => intro cur i h; simp [findSplitAux] at h
  | cons c rest ih =>
      intro cur i h
      simp only [findSplitAux] at h
      by_cases ht : isTag c = true
      · rw [if_pos ht] at h
        by_cases ho : maxLen < cur + nodeLen c
        · rw [if_pos ho] at h
          injection h with h0
          exact h0 ▸ ⟨c, by simp, ht⟩
        · rw [if_neg ho] at h
          rcases Option.map_eq_some'.mp h with ⟨j, hj, rfl⟩
          rcases ih (cur + nodeLen c) j hj with ⟨cj, hcj, htj⟩
          exact ⟨cj, by simpa [List.get?_cons_succ] using hcj, htj⟩
      · rw [if_neg ht] at h
        rcases Option.map_eq_some'.mp h with ⟨j, hj, rfl⟩
        rcases ih cur j hj with ⟨cj, hcj, htj⟩
        exact ⟨cj, by simpa [List.get?_cons_succ] using hcj, htj⟩

/-- C10: whenever `_find_split_point` returns a child, that child is an
element (`Tag`), never a text node: the loop only ever returns from inside
its `isinstance(child, Tag)` branch. -/
theorem C10_split_point_is_tag (maxLen : Nat) (n : Node) (cur i : Nat)
    (h : find_split_point maxLen n cur = some i) :
    ∃ c, (childrenOf n).get? i = some c ∧ isTag c = true := by
  cases n with
  | text s => simp [find_split_point] at h
  | elem tag attrs cs => exact findSplitAux_tag maxLen cs cur i h

/-- C10 witness: on a concrete oversized element the returned split point is
its first child, a `b` element. -/
theorem C10_split_point_is_tag_witness :
    ∃ c, (childrenOf (.elem "div" [] [.elem "b" [] [.text "xxxx"]])).get? 0 = some c ∧
      isTag c = true :=
  C10_split_point_is_tag 5 (.elem "div" [] [.elem "b" [] [.text "xxxx"]]) 0 0 (by decide)

/-! The split-point locator, characterized.  The claim (spec §4.3) words the
locator as accumulating the estimated length of every direct child; the
following definition renders the locator exactly as those words describe it,
for comparison with `find_split_point` as the code has it. -/

/-- The split-point locator as the claim words it: scan all direct children in
document order, adding every child's estimated serialized length to the
running total, and return the first child whose inclusion pushes the total
strictly past `max_len`. -/
def findSplitClaimedAux (maxLen : Nat) : List Node → Nat → Option Nat
  | [], _ => none
  | c :: rest, currentLength =>
      if maxLen < currentLength + nodeLen c then some 0
      else (findSplitClaimedAux maxLen rest (currentLength + nodeLen c)).map (· + 1)

/-- Wrapper of `findSplitClaimedAux` with the signature of
`find_split_point`. -/
def find_split_point_claimed (maxLen : Nat) : Node → Nat → Option Nat
  | .text _, _ => none
  | .elem _ _ cs, currentLength => findSplitClaimedAux maxLen cs currentLength

/-- Serialized length of the `Tag` children strictly before index `i`: the
running total the code has actually accumulated when it examines child `i`. -/
def tagLenBefore (cs : List Node) (i : Nat) : Nat :=
  (((cs.take i).filter isTag).map nodeLen).sum

theorem tagLenBefore_zero (cs : List Node) : tagLenBefore cs 0 = 0 := rfl

theorem tagLenBefore_succ_tag {c : Node} (h : isTag c = true) (rest : List Node)
    (i : Nat) : tagLenBefore (c :: rest) (i + 1) = nodeLen c + tagLenBefore rest i := by
  simp [tagLenBefore, List.take_succ_cons, List.filter_cons, h]

theorem tagLenBefore_succ_text {c : Node} (h : isTag c = false) (rest : List Node)
    (i : Nat) : tagLenBefore (c :: rest) (i + 1) = tagLenBefore rest i := by
  simp [tagLenBefore, List.take_succ_cons, List.filter_cons, h]

theorem findSplitAux_some_spec (maxLen : Nat) (cs : List Node) :
    ∀ (cur i : Nat), findSplitAux maxLen cs cur = some i →
      ∃ c, cs.get? i = some c ∧ isTag c = true ∧
        maxLen < cur + tagLenBefore cs i + nodeLen c ∧
        ∀ j, j < i → ∀ cj, cs.get? j = some cj → isTag cj = true →
          cur + tagLenBefore cs j + nodeLen cj ≤ maxLen := by
  induction cs with
  | nil => intro cur i h; simp [findSplitAux] at h
  | cons c rest ih =>
      intro cur i h
      simp only [findSplitAux] at h
      by_cases ht : isTag c = true
      · rw [if_pos ht] at h
        by_cases ho : maxLen < cur + nodeLen c
        · rw [if_pos ho] at h
          injection h with h0
          subst h0
          refine ⟨c, by simp, ht, ?_, ?_⟩
          · have h0 : tagLenBefore (c :: rest) 0 = 0 := rfl
            omega
          · intro j hj cj hcj htj
            exact absurd hj (Nat.not_lt_zero j)
        · rw [if_neg ho] at h
          rcases Option.map_eq_some'.mp h with ⟨j, hj, rfl⟩
          rcases ih (cur + nodeLen c) j hj with ⟨cj, hcj, htj, hbound, hmin⟩
          refine ⟨cj, by simpa [List.get?_cons_succ] using hcj, htj, ?_, ?_⟩
          · have hs := tagLenBefore_succ_tag ht rest j
            omega
          · intro k hk ck hck htk
            cases k with
            | zero =>
                simp only [List.get?_cons_zero] at hck
                injection hck with hck
                subst hck
                have h0 : tagLenBefore (c :: rest) 0 = 0 := rfl
                omega
            | succ k =>
                have hk2 : k < j := Nat.lt_of_succ_lt_succ hk
                simp only [List.get?_cons_succ] at hck
                have hb := hmin k hk2 ck hck htk
                have hs := tagLenBefore_succ_tag ht rest k
                omega
      · have htf : isTag c = false := by revert ht; cases isTag c <;> simp
        rw [if_neg ht] at h
        rcases Option.map_eq_some'.mp h with ⟨j, hj, rfl⟩
        rcases ih cur j hj with ⟨cj, hcj, htj, hbound, hmin⟩
        refine ⟨cj, by simpa [List.get?_cons_succ] using hcj, htj, ?_, ?_⟩
        · have hs := tagLenBefore_succ_text htf rest j
          omega
        · intro k hk ck hck htk
          cases k with
          | zero =>
              simp only [List.get?_cons_zero] at hck
              injection hck with hck
              subst hck
              rw [htf] at htk
              exact absurd htk (by simp)
          | succ k =>
              have hk2 : k < j := Nat.lt_of_succ_lt_succ hk
              simp only [List.get?_cons_succ] at hck
              have hb := hmin k hk2 ck hck htk
              have hs := tagLenBefore_succ_text htf rest k
              omega

theorem findSplitAux_none_spec (maxLen : Nat) (cs : List Node) :
    ∀ cur, findSplitAux maxLen cs cur = none →
      ∀ j cj, cs.get? j = some cj → isTag cj = true →
        cur + tagLenBefore cs j + nodeLen cj ≤ maxLen := by
  induction cs with
  | nil => intro cur h j cj hcj htj; simp at hcj
  | cons c rest ih =>
      intro cur h j cj hcj htj
      simp only [findSplitAux] at h
      by_cases ht : isTag c = true
      · rw [if_pos ht] at h
        by_cases ho : maxLen < cur + nodeLen c
        · rw [if_pos ho] at h; simp at h
        · rw [if_neg ho] at h
          have h2 : findSplitAux maxLen rest (cur + nodeLen c) = none := by
            rcases hx : findSplitAux maxLen rest (cur + nodeLen c) with _ | v
            · rfl
            · rw [hx] at h; simp at h
          cases j with
          | zero =>
              simp only [List.get?_cons_zero] at hcj
              injection hcj with hcj
              subst hcj
              have h0 : tagLenBefore (c :: rest) 0 = 0 := rfl
              omega
          | succ j =>
              simp only [List.get?_cons_succ] at hcj
              have hb := ih (cur + nodeLen c) h2 j cj hcj htj
              have hs := tagLenBefore_succ_tag ht rest j
              omega
      · have htf : isTag c = false := by revert ht; cases isTag c <;> simp
        rw [if_neg ht] at h
        have h2 : findSplitAux maxLen rest cur = none := by
          rcases hx : findSplitAux maxLen rest cur with _ | v
          · rfl
          · rw [hx] at h; simp at h
        cases j with
        | zero =>
            simp only [List.get?_cons_zero] at hcj
            injection hcj with hcj
            subst hcj
            rw [htf] at htj
            exact absurd htj (by simp)
        | succ j =>
            simp only [List.get?_cons_succ] at hcj
            have hb := ih cur h2 j cj hcj htj
            have hs := tagLenBefore_succ_text htf rest j
            omega

/-- C6 counterexample: a 50-character text child followed by a 61-character
bold element, with `max_len = 100` and starting total 0.  Under the claim's
accounting (every child contributes) the bold child lands at 111 > 100 and
must be returned, but the code skips the text child's length entirely and
returns nothing. -/
theorem C6_counterexample :
    find_split_point 100
        (.elem "d" []
          [.text "xxxxxxxxxxxxxxxxxxxxxxxxxxxxxxxxxxxxxxxxxxxxxxxxxx",
           .elem "b" []
             [.text "xxxxxxxxxxxxxxxxxxxxxxxxxxxxxxxxxxxxxxxxxxxxxxxxxxxxxx"]]) 0
      = none ∧
    find_split_point_claimed 100
        (.elem "d" []
          [.text "xxxxxxxxxxxxxxxxxxxxxxxxxxxxxxxxxxxxxxxxxxxxxxxxxx",
           .elem "b" []
             [.text "xxxxxxxxxxxxxxxxxxxxxxxxxxxxxxxxxxxxxxxxxxxxxxxxxxxxxx"]]) 0
      = some 1 := ⟨by decide, by decide⟩

/-- C6 amended: the locator scans direct children in document order but only
`Tag` children contribute to the running total; text children are passed over
without adding their length.  It returns the first element child whose
serialized length pushes the total of the element children before it strictly
past `max_len` (strict `>`: a child landing exactly at the limit is included),
and returns none exactly when every element child fits under that
accounting. -/
theorem C6_locator_characterization (maxLen : Nat) (tag : String)
    (attrs : List (String × String)) (cs : List Node) (cur : Nat) :
    (∀ i, find_split_point maxLen (.elem tag attrs cs) cur = some i →
      ∃ c, cs.get? i = some c ∧ isTag c = true ∧
        maxLen < cur + tagLenBefore cs i + nodeLen c ∧
        ∀ j, j < i → ∀ cj, cs.get? j = some cj → isTag cj = true →
          cur + tagLenBefore cs j + nodeLen cj ≤ maxLen) ∧
    (find_split_point maxLen (.elem tag attrs cs) cur = none →
      ∀ j cj, cs.get? j = some cj → isTag cj = true →
        cur + tagLenBefore cs j + nodeLen cj ≤ maxLen) :=
  ⟨fun i h => findSplitAux_some_spec maxLen cs cur i h,
   fun h => findSplitAux_none_spec maxLen cs cur h⟩

/-- C6 amended witness: on the counterexample element the locator returns
none, and indeed its single element child fits under the code's
element-children-only accounting. -/
theorem C6_locator_characterization_witness :
    0 + tagLenBefore
          [(.text "xxxxxxxxxxxxxxxxxxxxxxxxxxxxxxxxxxxxxxxxxxxxxxxxxx" : Node),
           .elem "b" []
             [.text "xxxxxxxxxxxxxxxxxxxxxxxxxxxxxxxxxxxxxxxxxxxxxxxxxxxxxx"]] 1
        + nodeLen (.elem "b" []
            [.text "xxxxxxxxxxxxxxxxxxxxxxxxxxxxxxxxxxxxxxxxxxxxxxxxxxxxxx"])
      ≤ 100 :=
  (C6_locator_characterization 100 "d" [] _ 0).2 (by decide) 1 _ rfl rfl

end MsgSplit
